import Mathlib

/-!
# Verification of the LOTUS batch extractor and the SMILES-update pass

Shallow embedding of the two scripts of the repository:

* `checkingsomething.py` — `update_smiles_strict`: for each compound entry,
  resolve a stereochemistry-aware SMILES through an ordered fallback chain
  (PubChem by InChIKey first, by compound name second), then rewrite the
  `smiles` field of the document and report summary counters.
* `lotus_batch_extractor.py` — `main`: a resumable batch run over a plant
  work set; the set of already-completed plants is recovered by scanning the
  existing output file for lines starting with `PLANT #`, and every processed
  plant appends one formatted section to the output.

Strings are modelled as `List Char` (`Str`), files as their character
content, and the external HTTP sources as oracle functions supplied as
parameters.  All definitions are translated from the Python source; the one
spec-side definition (`firstWins`) is clearly marked and is only compared
with the code-side aggregation.
-/

set_option linter.unusedVariables false

abbrev Str := List Char

/-! ## Resolver model (`checkingsomething.py`, `update_smiles_strict` lines 20-107)

The per-entry lookup logic of `update_smiles_strict`.  A lookup against
PubChem either produces the raw SMILES string of the first property record
(`Outcome.ok`) or fails with any exception — timeout, HTTP error, missing
JSON field (`Outcome.fail`); the `try/except` blocks of the source catch
everything, so the oracle type is exactly this two-case outcome. -/

inductive Outcome where
  | ok (v : Str)
  | fail
deriving DecidableEq, Repr

/-- The two hint fields the code reads from an entry:
`entry.get('compound_name', '')` and `entry.get('inchikey', '')`. -/
structure Item where
  name : Str
  inchikey : Str
deriving DecidableEq, Repr

/-- The two lookup sources, in fallback order: the InChIKey query is tried
first, the name query second. -/
inductive Src where
  | byInchikey
  | byName
deriving DecidableEq, Repr

/-- `'@' in smiles or '/' in smiles or '\\' in smiles` (line 37): the
source-specific quality predicate; presence of a stereochemistry marker
means the FULL tier. -/
def hasStereo (s : Str) : Bool :=
  s.contains '@' || s.contains '/' || s.contains '\\'

/-- Result of resolving one entry: the final `best_smiles` value, the list
of sources actually queried (in query order), and whether the code counted
the entry in `emptied_count` (the `❌ Not found - EMPTIED` branches). -/
structure RRes where
  value : Str
  consulted : List Src
  emptied : Bool
deriving DecidableEq, Repr

/-- Quality tiers of a resolved value.  Per the data model, the value is
non-empty iff the tier is not `UNRESOLVED`; a non-empty value is `FULL`
when it carries a stereochemistry marker, else `DEGRADED`. -/
inductive Tier where
  | FULL
  | DEGRADED
  | UNRESOLVED
deriving DecidableEq, Repr

def tierOf (s : Str) : Tier :=
  if s.isEmpty then .UNRESOLVED else if hasStereo s then .FULL else .DEGRADED

/-- The fallback chain of `update_smiles_strict` (lines 26-98), translated
branch by branch.  `oik` is the outcome of the PubChem InChIKey query at a
given key, `onm` the outcome of the PubChem name query at a given name.

* InChIKey present and query succeeds: a stereo SMILES is taken at once
  (no name query); a flat SMILES triggers the name query, whose result is
  taken only if it has stereo, otherwise the flat InChIKey SMILES is kept
  (lines 41-60).
* InChIKey present but the query fails: the name query result is taken
  unconditionally; if it also fails the value is emptied (lines 61-79).
* No InChIKey: name query only; no hints at all resolves straight to the
  empty value with zero queries (lines 80-98). -/
def resolve (it : Item) (oik onm : Str → Outcome) : RRes :=
  if it.inchikey.isEmpty then
    if it.name.isEmpty then
      ⟨[], [], true⟩
    else
      match onm it.name with
      | .ok s2 => ⟨s2, [.byName], false⟩
      | .fail => ⟨[], [.byName], true⟩
  else
    match oik it.inchikey with
    | .ok s =>
      if hasStereo s then
        ⟨s, [.byInchikey], false⟩
      else if it.name.isEmpty then
        ⟨s, [.byInchikey], false⟩
      else
        match onm it.name with
        | .ok s2 =>
          if hasStereo s2 then ⟨s2, [.byInchikey, .byName], false⟩
          else ⟨s, [.byInchikey, .byName], false⟩
        | .fail => ⟨s, [.byInchikey, .byName], false⟩
    | .fail =>
      if it.name.isEmpty then
        ⟨[], [.byInchikey], true⟩
      else
        match onm it.name with
        | .ok s2 => ⟨s2, [.byInchikey, .byName], false⟩
        | .fail => ⟨[], [.byInchikey, .byName], true⟩

/-- The outcome a given source produces for a given item: the InChIKey
source is keyed by the item's InChIKey, the name source by its name. -/
def outcomeAt (it : Item) (oik onm : Str → Outcome) : Src → Outcome
  | .byInchikey => oik it.inchikey
  | .byName => onm it.name

/-- The first DEGRADED-tier value among the consulted sources, in query
order. -/
def firstDegraded (it : Item) (oik onm : Str → Outcome) : Option Str :=
  (resolve it oik onm).consulted.findSome? fun src =>
    match outcomeAt it oik onm src with
    | .ok v => if tierOf v = .DEGRADED then some v else none
    | .fail => none

theorem hasStereo_ne_nil {s : Str} (h : hasStereo s = true) : s ≠ [] := by
  intro hs
  subst hs
  simp [hasStereo, List.contains] at h

theorem isEmpty_eq_false_of_hasStereo {s : Str} (h : hasStereo s = true) :
    s.isEmpty = false := by
  cases s with
  | nil => exact absurd h (by simp [hasStereo, List.contains])
  | cons c cs => rfl

theorem isEmpty_false_of_ne_nil {s : Str} (h : s ≠ []) : s.isEmpty = false := by
  cases s with
  | nil => exact absurd rfl h
  | cons c cs => rfl

/-- Exhaustive case analysis of `resolve`: the eleven control-flow paths of
`update_smiles_strict`, each with the oracle facts that select it and the
resulting value, consulted-source list and emptied flag. -/
theorem resolve_shape (it : Item) (oik onm : Str → Outcome) :
    (it.inchikey.isEmpty = true ∧ it.name.isEmpty = true ∧
      resolve it oik onm = ⟨[], [], true⟩) ∨
    (it.inchikey.isEmpty = true ∧ it.name.isEmpty = false ∧ ∃ s2,
      onm it.name = .ok s2 ∧ resolve it oik onm = ⟨s2, [.byName], false⟩) ∨
    (it.inchikey.isEmpty = true ∧ it.name.isEmpty = false ∧
      onm it.name = .fail ∧ resolve it oik onm = ⟨[], [.byName], true⟩) ∨
    (it.inchikey.isEmpty = false ∧ ∃ s, oik it.inchikey = .ok s ∧ hasStereo s = true ∧
      resolve it oik onm = ⟨s, [.byInchikey], false⟩) ∨
    (it.inchikey.isEmpty = false ∧ it.name.isEmpty = true ∧ ∃ s,
      oik it.inchikey = .ok s ∧ hasStereo s = false ∧
      resolve it oik onm = ⟨s, [.byInchikey], false⟩) ∨
    (it.inchikey.isEmpty = false ∧ it.name.isEmpty = false ∧ ∃ s s2,
      oik it.inchikey = .ok s ∧ hasStereo s = false ∧ onm it.name = .ok s2 ∧
      hasStereo s2 = true ∧
      resolve it oik onm = ⟨s2, [.byInchikey, .byName], false⟩) ∨
    (it.inchikey.isEmpty = false ∧ it.name.isEmpty = false ∧ ∃ s s2,
      oik it.inchikey = .ok s ∧ hasStereo s = false ∧ onm it.name = .ok s2 ∧
      hasStereo s2 = false ∧
      resolve it oik onm = ⟨s, [.byInchikey, .byName], false⟩) ∨
    (it.inchikey.isEmpty = false ∧ it.name.isEmpty = false ∧ ∃ s,
      oik it.inchikey = .ok s ∧ hasStereo s = false ∧ onm it.name = .fail ∧
      resolve it oik onm = ⟨s, [.byInchikey, .byName], false⟩) ∨
    (it.inchikey.isEmpty = false ∧ it.name.isEmpty = true ∧ oik it.inchikey = .fail ∧
      resolve it oik onm = ⟨[], [.byInchikey], true⟩) ∨
    (it.inchikey.isEmpty = false ∧ it.name.isEmpty = false ∧ oik it.inchikey = .fail ∧
      ∃ s2, onm it.name = .ok s2 ∧
      resolve it oik onm = ⟨s2, [.byInchikey, .byName], false⟩) ∨
    (it.inchikey.isEmpty = false ∧ it.name.isEmpty = false ∧ oik it.inchikey = .fail ∧
      onm it.name = .fail ∧ resolve it oik onm = ⟨[], [.byInchikey, .byName], true⟩) := by
  cases hik : it.inchikey.isEmpty with
  | true =>
    cases hnm : it.name.isEmpty with
    | true => exact Or.inl ⟨rfl, rfl, by simp [resolve, hik, hnm]⟩
    | false =>
      cases honm : onm it.name with
      | ok s2 =>
        exact Or.inr (Or.inl ⟨rfl, rfl, s2, rfl, by simp [resolve, hik, hnm, honm]⟩)
      | fail =>
        exact Or.inr (Or.inr (Or.inl ⟨rfl, rfl, rfl, by simp [resolve, hik, hnm, honm]⟩))
  | false =>
    cases hoik : oik it.inchikey with
    | ok s =>
      cases hs : hasStereo s with
      | true =>
        refine Or.inr (Or.inr (Or.inr (Or.inl ⟨rfl, s, rfl, hs, ?_⟩)))
        simp [resolve, hik, hoik, hs]
      | false =>
        cases hnm : it.name.isEmpty with
        | true =>
          refine Or.inr (Or.inr (Or.inr (Or.inr (Or.inl ⟨rfl, rfl, s, rfl, hs, ?_⟩))))
          simp [resolve, hik, hnm, hoik, hs]
        | false =>
          cases honm : onm it.name with
          | ok s2 =>
            cases hs2 : hasStereo s2 with
            | true =>
              refine Or.inr (Or.inr (Or.inr (Or.inr (Or.inr (Or.inl
                ⟨rfl, rfl, s, s2, rfl, hs, rfl, hs2, ?_⟩)))))
              simp [resolve, hik, hnm, hoik, hs, honm, hs2]
            | false =>
              refine Or.inr (Or.inr (Or.inr (Or.inr (Or.inr (Or.inr (Or.inl
                ⟨rfl, rfl, s, s2, rfl, hs, rfl, hs2, ?_⟩))))))
              simp [resolve, hik, hnm, hoik, hs, honm, hs2]
          | fail =>
            refine Or.inr (Or.inr (Or.inr (Or.inr (Or.inr (Or.inr (Or.inr (Or.inl
              ⟨rfl, rfl, s, rfl, hs, rfl, ?_⟩)))))))
            simp [resolve, hik, hnm, hoik, hs, honm]
    | fail =>
      cases hnm : it.name.isEmpty with
      | true =>
        refine Or.inr (Or.inr (Or.inr (Or.inr (Or.inr (Or.inr (Or.inr (Or.inr (Or.inl
          ⟨rfl, rfl, rfl, ?_⟩))))))))
        simp [resolve, hik, hnm, hoik]
      | false =>
        cases honm : onm it.name with
        | ok s2 =>
          refine Or.inr (Or.inr (Or.inr (Or.inr (Or.inr (Or.inr (Or.inr (Or.inr (Or.inr
            (Or.inl ⟨rfl, rfl, rfl, s2, rfl, ?_⟩)))))))))
          simp [resolve, hik, hnm, hoik, honm]
        | fail =>
          refine Or.inr (Or.inr (Or.inr (Or.inr (Or.inr (Or.inr (Or.inr (Or.inr (Or.inr
            (Or.inr ⟨rfl, rfl, rfl, rfl, ?_⟩)))))))))
          simp [resolve, hik, hnm, hoik, honm]

/-- **C3.** If some consulted lookup source returns a FULL-tier value (a
SMILES with a stereochemistry marker), `resolve` returns exactly that value
at FULL tier, and no source later in the fallback order is invoked: in
particular, a FULL result from the InChIKey source means the name source is
never queried. -/
theorem c3_full_short_circuit (it : Item) (oik onm : Str → Outcome) (src : Src) (v : Str)
    (hmem : src ∈ (resolve it oik onm).consulted)
    (hok : outcomeAt it oik onm src = .ok v)
    (hst : hasStereo v = true) :
    (resolve it oik onm).value = v ∧ tierOf (resolve it oik onm).value = .FULL ∧
      (src = .byInchikey → Src.byName ∉ (resolve it oik onm).consulted) := by
  have hfull : ∀ w : Str, hasStereo w = true → tierOf w = .FULL := fun w hw => by
    simp [tierOf, isEmpty_eq_false_of_hasStereo hw, hw]
  rcases resolve_shape it oik onm with
    ⟨hik, hnm, hr⟩ | ⟨hik, hnm, s2, honm, hr⟩ | ⟨hik, hnm, honm, hr⟩ |
    ⟨hik, s, hoik, hs, hr⟩ | ⟨hik, hnm, s, hoik, hs, hr⟩ |
    ⟨hik, hnm, s, s2, hoik, hs, honm, hs2, hr⟩ |
    ⟨hik, hnm, s, s2, hoik, hs, honm, hs2, hr⟩ |
    ⟨hik, hnm, s, hoik, hs, honm, hr⟩ | ⟨hik, hnm, hoik, hr⟩ |
    ⟨hik, hnm, hoik, s2, honm, hr⟩ | ⟨hik, hnm, hoik, honm, hr⟩
  · rw [hr] at hmem
    simp at hmem
  · rw [hr] at hmem ⊢
    simp at hmem
    subst hmem
    simp only [outcomeAt, honm] at hok
    have hv : s2 = v := by injection hok
    subst hv
    exact ⟨rfl, hfull s2 hst, by simp⟩
  · rw [hr] at hmem
    simp at hmem
    subst hmem
    simp only [outcomeAt, honm] at hok
    exact absurd hok (by simp)
  · rw [hr] at hmem ⊢
    simp at hmem
    subst hmem
    simp only [outcomeAt, hoik] at hok
    have hv : s = v := by injection hok
    subst hv
    exact ⟨rfl, hfull s hst, by simp⟩
  · rw [hr] at hmem
    simp at hmem
    subst hmem
    simp only [outcomeAt, hoik] at hok
    have hv : s = v := by injection hok
    subst hv
    exact absurd hst (by simp [hs])
  · rw [hr] at hmem ⊢
    simp at hmem
    rcases hmem with hmem | hmem <;> subst hmem
    · simp only [outcomeAt, hoik] at hok
      have hv : s = v := by injection hok
      subst hv
      exact absurd hst (by simp [hs])
    · simp only [outcomeAt, honm] at hok
      have hv : s2 = v := by injection hok
      subst hv
      exact ⟨rfl, hfull s2 hst, by simp⟩
  · rw [hr] at hmem
    simp at hmem
    rcases hmem with hmem | hmem <;> subst hmem
    · simp only [outcomeAt, hoik] at hok
      have hv : s = v := by injection hok
      subst hv
      exact absurd hst (by simp [hs])
    · simp only [outcomeAt, honm] at hok
      have hv : s2 = v := by injection hok
      subst hv
      exact absurd hst (by simp [hs2])
  · rw [hr] at hmem
    simp at hmem
    rcases hmem with hmem | hmem <;> subst hmem
    · simp only [outcomeAt, hoik] at hok
      have hv : s = v := by injection hok
      subst hv
      exact absurd hst (by simp [hs])
    · simp only [outcomeAt, honm] at hok
      exact absurd hok (by simp)
  · rw [hr] at hmem
    simp at hmem
    subst hmem
    simp only [outcomeAt, hoik] at hok
    exact absurd hok (by simp)
  · rw [hr] at hmem ⊢
    simp at hmem
    rcases hmem with hmem | hmem <;> subst hmem
    · simp only [outcomeAt, hoik] at hok
      exact absurd hok (by simp)
    · simp only [outcomeAt, honm] at hok
      have hv : s2 = v := by injection hok
      subst hv
      exact ⟨rfl, hfull s2 hst, by simp⟩
  · rw [hr] at hmem
    simp at hmem
    rcases hmem with hmem | hmem <;> subst hmem
    · simp only [outcomeAt, hoik] at hok
      exact absurd hok (by simp)
    · simp only [outcomeAt, honm] at hok
      exact absurd hok (by simp)

/-- Witness for C3 at a concrete input: InChIKey lookup returns a stereo
SMILES, so it is taken at FULL tier and the name source is not consulted. -/
theorem c3_full_short_circuit_witness :
    (Src.byInchikey ∈
        (resolve ⟨"Name".toList, "KEY".toList⟩
          (fun _ => .ok ['C', '@']) (fun _ => .fail)).consulted ∧
      outcomeAt ⟨"Name".toList, "KEY".toList⟩
          (fun _ => .ok ['C', '@']) (fun _ => .fail) .byInchikey = .ok ['C', '@'] ∧
      hasStereo ['C', '@'] = true) ∧
    ((resolve ⟨"Name".toList, "KEY".toList⟩
        (fun _ => .ok ['C', '@']) (fun _ => .fail)).value = ['C', '@'] ∧
      tierOf (resolve ⟨"Name".toList, "KEY".toList⟩
        (fun _ => .ok ['C', '@']) (fun _ => .fail)).value = .FULL ∧
      (Src.byInchikey = .byInchikey →
        Src.byName ∉ (resolve ⟨"Name".toList, "KEY".toList⟩
          (fun _ => .ok ['C', '@']) (fun _ => .fail)).consulted)) :=
  ⟨⟨by decide, by decide, by decide⟩,
    c3_full_short_circuit _ _ _ _ _ (by decide) (by decide) (by decide)⟩

/-- **C7.** A work item with no usable hint fields (empty name and empty
InChIKey) resolves to the empty value — UNRESOLVED tier — with zero lookup
source calls (the consulted list is empty), and is counted as emptied. -/
theorem c7_no_hints_unresolved (it : Item) (oik onm : Str → Outcome)
    (hn : it.name = []) (hk : it.inchikey = []) :
    resolve it oik onm = ⟨[], [], true⟩ ∧
      tierOf (resolve it oik onm).value = .UNRESOLVED := by
  obtain ⟨nm, ik⟩ := it
  simp only at hn hk
  subst hn
  subst hk
  exact ⟨by simp [resolve], by simp [resolve, tierOf]⟩

/-- Witness for C7: the no-hints item resolves to empty with no source
calls even when both sources would answer. -/
theorem c7_no_hints_unresolved_witness :
    resolve ⟨[], []⟩ (fun _ => .ok ['C']) (fun _ => .ok ['N']) = ⟨[], [], true⟩ ∧
      tierOf (resolve ⟨[], []⟩ (fun _ => .ok ['C']) (fun _ => .ok ['N'])).value =
        .UNRESOLVED :=
  c7_no_hints_unresolved _ _ _ rfl rfl

theorem tierOf_degraded {w : Str} (h1 : w ≠ []) (h2 : hasStereo w = false) :
    tierOf w = .DEGRADED := by
  simp [tierOf, isEmpty_false_of_ne_nil h1, h2]

/-- **C4 (amended).** Provided every successful lookup response is a
non-empty string (a real SMILES), whenever no consulted source yields a
FULL-tier value but some consulted source yields a DEGRADED-tier value,
`resolve` returns exactly the first DEGRADED value encountered in source
order, at DEGRADED tier — never UNRESOLVED and never a later candidate. -/
theorem c4_first_degraded (it : Item) (oik onm : Str → Outcome)
    (hokik : ∀ k v, oik k = .ok v → v ≠ [])
    (hoknm : ∀ k v, onm k = .ok v → v ≠ [])
    (hnofull : ∀ src ∈ (resolve it oik onm).consulted, ∀ v,
      outcomeAt it oik onm src = .ok v → hasStereo v = false)
    (hdeg : ∃ src ∈ (resolve it oik onm).consulted, ∃ v,
      outcomeAt it oik onm src = .ok v ∧ tierOf v = .DEGRADED) :
    some (resolve it oik onm).value = firstDegraded it oik onm ∧
      tierOf (resolve it oik onm).value = .DEGRADED := by
  rcases resolve_shape it oik onm with
    ⟨hik, hnm, hr⟩ | ⟨hik, hnm, s2, honm, hr⟩ | ⟨hik, hnm, honm, hr⟩ |
    ⟨hik, s, hoik, hs, hr⟩ | ⟨hik, hnm, s, hoik, hs, hr⟩ |
    ⟨hik, hnm, s, s2, hoik, hs, honm, hs2, hr⟩ |
    ⟨hik, hnm, s, s2, hoik, hs, honm, hs2, hr⟩ |
    ⟨hik, hnm, s, hoik, hs, honm, hr⟩ | ⟨hik, hnm, hoik, hr⟩ |
    ⟨hik, hnm, hoik, s2, honm, hr⟩ | ⟨hik, hnm, hoik, honm, hr⟩
  · rw [hr] at hdeg
    simp at hdeg
  · have hne : s2 ≠ [] := hoknm _ _ honm
    have hflat : hasStereo s2 = false :=
      hnofull .byName (by rw [hr]; simp) s2 (by simp [outcomeAt, honm])
    have ht := tierOf_degraded hne hflat
    constructor
    · simp only [firstDegraded]
      rw [hr]
      simp [List.findSome?, outcomeAt, honm, ht]
    · rw [hr]
      exact ht
  · obtain ⟨src, hsrc, v, hv, htier⟩ := hdeg
    rw [hr] at hsrc
    simp at hsrc
    subst hsrc
    simp [outcomeAt, honm] at hv
  · have hflat : hasStereo s = false :=
      hnofull .byInchikey (by rw [hr]; simp) s (by simp [outcomeAt, hoik])
    exact absurd hs (by simp [hflat])
  · have hne : s ≠ [] := hokik _ _ hoik
    have ht := tierOf_degraded hne hs
    constructor
    · simp only [firstDegraded]
      rw [hr]
      simp [List.findSome?, outcomeAt, hoik, ht]
    · rw [hr]
      exact ht
  · have hflat : hasStereo s2 = false :=
      hnofull .byName (by rw [hr]; simp) s2 (by simp [outcomeAt, honm])
    exact absurd hs2 (by simp [hflat])
  · have hne : s ≠ [] := hokik _ _ hoik
    have ht := tierOf_degraded hne hs
    constructor
    · simp only [firstDegraded]
      rw [hr]
      simp [List.findSome?, outcomeAt, hoik, ht]
    · rw [hr]
      exact ht
  · have hne : s ≠ [] := hokik _ _ hoik
    have ht := tierOf_degraded hne hs
    constructor
    · simp only [firstDegraded]
      rw [hr]
      simp [List.findSome?, outcomeAt, hoik, ht]
    · rw [hr]
      exact ht
  · obtain ⟨src, hsrc, v, hv, htier⟩ := hdeg
    rw [hr] at hsrc
    simp at hsrc
    subst hsrc
    simp [outcomeAt, hoik] at hv
  · have hne : s2 ≠ [] := hoknm _ _ honm
    have hflat : hasStereo s2 = false :=
      hnofull .byName (by rw [hr]; simp) s2 (by simp [outcomeAt, honm])
    have ht := tierOf_degraded hne hflat
    constructor
    · simp only [firstDegraded]
      rw [hr]
      simp [List.findSome?, outcomeAt, hoik, honm, ht]
    · rw [hr]
      exact ht
  · obtain ⟨src, hsrc, v, hv, htier⟩ := hdeg
    rw [hr] at hsrc
    simp at hsrc
    rcases hsrc with hsrc | hsrc <;> subst hsrc
    · simp [outcomeAt, hoik] at hv
    · simp [outcomeAt, honm] at hv

/-- Witness for the amended C4: InChIKey lookup returns the flat SMILES
`CC` and the name lookup fails, so `resolve` returns `CC`, the first (and
only) DEGRADED candidate. -/
theorem c4_first_degraded_witness :
    some (resolve ⟨"Nm".toList, "K".toList⟩
        (fun _ => .ok ['C', 'C']) (fun _ => .fail)).value =
      firstDegraded ⟨"Nm".toList, "K".toList⟩
        (fun _ => .ok ['C', 'C']) (fun _ => .fail) ∧
    tierOf (resolve ⟨"Nm".toList, "K".toList⟩
        (fun _ => .ok ['C', 'C']) (fun _ => .fail)).value = .DEGRADED :=
  c4_first_degraded _ _ _
    (fun k v h => by injection h with h2; subst h2; decide)
    (fun k v h => Outcome.noConfusion h)
    (fun src hsrc v hv => by
      cases src with
      | byInchikey => injection hv with h2; subst h2; decide
      | byName => exact Outcome.noConfusion hv)
    ⟨.byInchikey, by decide, ['C', 'C'], rfl, by decide⟩

/-- **C4 counterexample.** The claim as stated fails on the code: with the
InChIKey lookup "succeeding" with an empty string and the name lookup
returning the flat SMILES `CC`, both sources are consulted, no source
yields a FULL value, the name source yields the DEGRADED value `CC` — yet
`resolve` keeps the flat InChIKey-derived value (the empty string, the
`best_smiles = smiles  # Flat but valid` branch at line 53) and thus
returns UNRESOLVED instead of the DEGRADED candidate. -/
theorem c4_counterexample :
    (resolve ⟨"Nm".toList, "K".toList⟩
        (fun _ => .ok []) (fun _ => .ok ['C', 'C'])).consulted =
      [.byInchikey, .byName] ∧
    outcomeAt ⟨"Nm".toList, "K".toList⟩
        (fun _ => .ok []) (fun _ => .ok ['C', 'C']) .byName = .ok ['C', 'C'] ∧
    tierOf ['C', 'C'] = .DEGRADED ∧
    hasStereo [] = false ∧ hasStereo ['C', 'C'] = false ∧
    (resolve ⟨"Nm".toList, "K".toList⟩
        (fun _ => .ok []) (fun _ => .ok ['C', 'C'])).value = [] ∧
    tierOf (resolve ⟨"Nm".toList, "K".toList⟩
        (fun _ => .ok []) (fun _ => .ok ['C', 'C'])).value = .UNRESOLVED := by
  decide

/-! ## Document model (`checkingsomething.py`, whole-run view)

JSON values, as loaded by `json.load`: the input document is an object
whose `compounds` key holds the entry array.  Only the `smiles` field of
the first `max_compounds` entries is rewritten; everything else is dumped
back unchanged (`json.dump(data, ...)` on the same in-memory document), so
equal values serialize identically. -/

inductive JVal where
  | s (v : Str)
  | num (v : Int)
  | boolv (b : Bool)
  | nullv
  | arr (items : List JVal)
  | obj (fields : List (Str × JVal))

def kCompounds : Str := "compounds".toList
def kSmiles : Str := "smiles".toList
def kCompoundName : Str := "compound_name".toList
def kInchikey : Str := "inchikey".toList

/-- Python dict read `d[k]` / `d.get(k)`: first binding of the key. -/
def jget : List (Str × JVal) → Str → Option JVal
  | [], _ => none
  | (k1, v) :: rest, k => if k1 = k then some v else jget rest k

/-- Python dict write `d[k] = v`: replace the binding in place if the key
exists (position preserved), else append a new binding. -/
def jset : List (Str × JVal) → Str → JVal → List (Str × JVal)
  | [], k, v => [(k, v)]
  | (k1, v1) :: rest, k, v =>
    if k1 = k then (k, v) :: rest else (k1, v1) :: jset rest k v

theorem jget_jset_self (fs : List (Str × JVal)) (k : Str) (v : JVal) :
    jget (jset fs k v) k = some v := by
  induction fs with
  | nil => simp [jget, jset]
  | cons p rest ih =>
    obtain ⟨k1, v1⟩ := p
    by_cases h : k1 = k <;> simp [jget, jset, h, ih]

theorem jget_jset_ne (fs : List (Str × JVal)) (k k1 : Str) (v : JVal)
    (h : k1 ≠ k) : jget (jset fs k v) k1 = jget fs k1 := by
  have hne : ¬(k = k1) := fun hh => h hh.symm
  induction fs with
  | nil => simp [jget, jset, hne]
  | cons p rest ih =>
    obtain ⟨k2, v2⟩ := p
    by_cases h2 : k2 = k
    · subst h2
      simp [jget, jset, hne]
    · by_cases h3 : k2 = k1 <;> simp [jget, jset, h2, h3, h, ih]

/-- `entry.get(k, '')` for the hint fields: a missing key defaults to the
empty string; a present non-string value is modelled as a fault (the
script would misuse it downstream), so the claims are stated for entries
whose hint fields are strings or absent. -/
def getHint (fs : List (Str × JVal)) (k : Str) : Option Str :=
  match jget fs k with
  | none => some []
  | some (.s v) => some v
  | some _ => none

/-- The two hint fields read at lines 21-22. -/
def itemOf (fs : List (Str × JVal)) : Option Item :=
  match getHint fs kCompoundName, getHint fs kInchikey with
  | some nm, some ik => some ⟨nm, ik⟩
  | _, _ => none

/-- Processing of one entry (lines 20-107): resolve the best SMILES and
write it into the entry's `smiles` field (`entry['smiles'] = best_smiles`,
lines 100-105; the empty string is written when nothing was found).
Returns the updated entry together with the flags that drive
`updated_count` (value non-empty) and `emptied_count`. -/
def updEntry (oik onm : Str → Outcome) (e : JVal) : Option (JVal × Bool × Bool) :=
  match e with
  | .obj fs =>
    match itemOf fs with
    | some it =>
      some (.obj (jset fs kSmiles (.s (resolve it oik onm).value)),
        !(resolve it oik onm).value.isEmpty, (resolve it oik onm).emptied)
    | none => none
  | _ => none

/-- The per-entry loop over `compounds[:max_compounds]`, accumulating
`updated_count` and `emptied_count`. -/
def updEntries (oik onm : Str → Outcome) : List JVal → Option (List JVal × Nat × Nat)
  | [] => some ([], 0, 0)
  | e :: es =>
    match updEntry oik onm e, updEntries oik onm es with
    | some (e1, upd, emp), some (es1, u, m) =>
      some (e1 :: es1, (if upd then 1 else 0) + u, (if emp then 1 else 0) + m)
    | _, _ => none

/-- The summary counters printed at lines 143-146. -/
structure USStats where
  updated : Nat
  emptied : Nat
  total : Nat
deriving DecidableEq, Repr

/-- `update_smiles_strict` (lines 7-146) as a document transformer: slice
the first `max_compounds` entries, rewrite each entry's `smiles` field in
place, keep the rest of the document untouched, and return the final
summary counters (`updated_count`, `emptied_count`, `len(compounds)`).
A malformed document (no `compounds` array, non-object entry, non-string
hint field) is a fault (`none`). -/
def update_smiles_strict (doc : JVal) (oik onm : Str → Outcome)
    (maxCompounds : Nat) : Option (JVal × USStats) :=
  match doc with
  | .obj fs =>
    match jget fs kCompounds with
    | some (.arr l) =>
      match updEntries oik onm (l.take maxCompounds) with
      | some (l1, u, m) =>
        some (.obj (jset fs kCompounds (.arr (l1 ++ l.drop maxCompounds))),
          ⟨u, m, (l.take maxCompounds).length⟩)
      | none => none
    | _ => none
  | _ => none

/-- Whether an entry would be counted in `updated_count`. -/
def entryUpdated (oik onm : Str → Outcome) (e : JVal) : Bool :=
  match updEntry oik onm e with
  | some (_, upd, _) => upd
  | none => false

/-- Whether an entry would be counted in `emptied_count`. -/
def entryEmptied (oik onm : Str → Outcome) (e : JVal) : Bool :=
  match updEntry oik onm e with
  | some (_, _, emp) => emp
  | none => false

theorem updEntries_counts (oik onm : Str → Outcome) :
    ∀ es es1 u m, updEntries oik onm es = some (es1, u, m) →
      u = (es.filter (entryUpdated oik onm)).length ∧
      m = (es.filter (entryEmptied oik onm)).length ∧
      es1.length = es.length := by
  intro es
  induction es with
  | nil =>
    intro es1 u m h
    simp only [updEntries, Option.some.injEq, Prod.mk.injEq] at h
    obtain ⟨h1, h2, h3⟩ := h
    subst h1
    subst h2
    subst h3
    simp
  | cons e rest ih =>
    intro es1 u m h
    simp only [updEntries] at h
    cases he : updEntry oik onm e with
    | none => rw [he] at h; simp at h
    | some t =>
      obtain ⟨e1, upd, emp⟩ := t
      cases hr : updEntries oik onm rest with
      | none => rw [he, hr] at h; simp at h
      | some t2 =>
        obtain ⟨es2, u2, m2⟩ := t2
        rw [he, hr] at h
        simp only [Option.some.injEq, Prod.mk.injEq] at h
        obtain ⟨h1, h2, h3⟩ := h
        obtain ⟨hu2, hm2, hl2⟩ := ih es2 u2 m2 hr
        subst h1
        constructor
        · cases hupd : upd <;>
            simp [← h2, List.filter, entryUpdated, he, hupd, hu2, Nat.add_comm]
        constructor
        · cases hemp : emp <;>
            simp [← h3, List.filter, entryEmptied, he, hemp, hm2, Nat.add_comm]
        · simp [hl2]

theorem updEntries_get? (oik onm : Str → Outcome) :
    ∀ es es1 u m, updEntries oik onm es = some (es1, u, m) →
      ∀ i e, es.get? i = some e →
        ∃ e1 upd emp, updEntry oik onm e = some (e1, upd, emp) ∧
          es1.get? i = some e1 := by
  intro es
  induction es with
  | nil => intro es1 u m h i e hi; simp at hi
  | cons e0 rest ih =>
    intro es1 u m h i e hi
    simp only [updEntries] at h
    cases he : updEntry oik onm e0 with
    | none => rw [he] at h; simp at h
    | some t =>
      obtain ⟨e1, upd, emp⟩ := t
      cases hr : updEntries oik onm rest with
      | none => rw [he, hr] at h; simp at h
      | some t2 =>
        obtain ⟨es2, u2, m2⟩ := t2
        rw [he, hr] at h
        simp only [Option.some.injEq, Prod.mk.injEq] at h
        obtain ⟨h1, h2, h3⟩ := h
        subst h1
        cases i with
        | zero =>
          rw [List.get?_cons_zero] at hi
          injection hi with hi2
          subst hi2
          exact ⟨e1, upd, emp, he, rfl⟩
        | succ i2 =>
          rw [List.get?_cons_succ] at hi
          obtain ⟨e2, upd2, emp2, hup2, hget2⟩ := ih es2 u2 m2 hr i2 e hi
          refine ⟨e2, upd2, emp2, hup2, ?_⟩
          rw [List.get?_cons_succ]
          exact hget2

theorem updEntry_shape (oik onm : Str → Outcome) (e e1 : JVal) (upd emp : Bool)
    (h : updEntry oik onm e = some (e1, upd, emp)) :
    ∃ fs0 it, e = .obj fs0 ∧ itemOf fs0 = some it ∧
      e1 = .obj (jset fs0 kSmiles (.s (resolve it oik onm).value)) ∧
      upd = !(resolve it oik onm).value.isEmpty ∧
      emp = (resolve it oik onm).emptied := by
  cases e with
  | obj fs0 =>
    cases hitem : itemOf fs0 with
    | none => simp [updEntry, hitem] at h
    | some it =>
      simp only [updEntry, hitem, Option.some.injEq, Prod.mk.injEq] at h
      obtain ⟨h1, h2, h3⟩ := h
      exact ⟨fs0, it, rfl, hitem, h1.symm, h2.symm, h3.symm⟩
  | s v => simp [updEntry] at h
  | num v => simp [updEntry] at h
  | boolv b => simp [updEntry] at h
  | nullv => simp [updEntry] at h
  | arr l => simp [updEntry] at h

/-- **C8 (amended).** The final summary of the SMILES-update pass reports
exactly three counters: `total` = number of processed entries,
`updated` = number of entries whose resolved value is non-empty — i.e.
resolved at FULL **or** DEGRADED, combined, not separated — and
`emptied` = number of entries counted by the failure branches.  The last
conjunct ties the `updated` flag of each well-formed entry to
"tier is not UNRESOLVED".  There is no separate FULL/DEGRADED count and no
isolated-failure count (see the counterexample). -/
theorem c8_summary_counters (oik onm : Str → Outcome) (maxCompounds : Nat)
    (fs : List (Str × JVal)) (l : List JVal) (doc1 : JVal) (st : USStats)
    (hc : jget fs kCompounds = some (.arr l))
    (hu : update_smiles_strict (.obj fs) oik onm maxCompounds = some (doc1, st)) :
    st.total = (l.take maxCompounds).length ∧
    st.updated = ((l.take maxCompounds).filter (entryUpdated oik onm)).length ∧
    st.emptied = ((l.take maxCompounds).filter (entryEmptied oik onm)).length ∧
    ∀ e ∈ l.take maxCompounds, ∀ fs0, e = .obj fs0 → ∀ it, itemOf fs0 = some it →
      (entryUpdated oik onm e = true ↔
        tierOf (resolve it oik onm).value ≠ .UNRESOLVED) := by
  simp only [update_smiles_strict, hc] at hu
  cases hup : updEntries oik onm (l.take maxCompounds) with
  | none => rw [hup] at hu; simp at hu
  | some t =>
    obtain ⟨l1, u, m⟩ := t
    rw [hup] at hu
    simp only [Option.some.injEq, Prod.mk.injEq] at hu
    obtain ⟨hdoc, hst⟩ := hu
    obtain ⟨hcu, hcm, hlen⟩ := updEntries_counts oik onm _ _ _ _ hup
    subst hst
    refine ⟨rfl, hcu, hcm, ?_⟩
    intro e he fs0 hefs it hit
    subst hefs
    have hflag : entryUpdated oik onm (.obj fs0) =
        !(resolve it oik onm).value.isEmpty := by
      simp [entryUpdated, updEntry, hit]
    rw [hflag]
    cases hv : (resolve it oik onm).value.isEmpty
    · cases hstereo : hasStereo (resolve it oik onm).value <;>
        simp [tierOf, hv, hstereo]
    · simp [tierOf, hv]

def c8wFields : List (Str × JVal) :=
  [(kCompounds, .arr [.obj [(kInchikey, .s "K".toList)]])]

def c8wEntries : List JVal := [.obj [(kInchikey, .s "K".toList)]]

def c8wOik : Str → Outcome := fun _ => .ok ['C', '@']

def c8wOnm : Str → Outcome := fun _ => .fail

def c8wDoc1 : JVal :=
  .obj (jset c8wFields kCompounds
    (.arr [.obj (jset [(kInchikey, .s "K".toList)] kSmiles (.s ['C', '@']))]))

/-- Witness for the amended C8 at a one-entry document resolved at FULL:
the summary is `{updated := 1, emptied := 0, total := 1}`. -/
theorem c8_summary_counters_witness :
    (USStats.mk 1 0 1).total = (c8wEntries.take 50).length ∧
    (USStats.mk 1 0 1).updated =
      ((c8wEntries.take 50).filter (entryUpdated c8wOik c8wOnm)).length ∧
    (USStats.mk 1 0 1).emptied =
      ((c8wEntries.take 50).filter (entryEmptied c8wOik c8wOnm)).length := by
  obtain ⟨h1, h2, h3, h4⟩ :=
    c8_summary_counters c8wOik c8wOnm 50 c8wFields c8wEntries c8wDoc1 ⟨1, 0, 1⟩ rfl rfl
  exact ⟨h1, h2, h3⟩

/-- **C8 counterexample.** Two runs, one resolving its only entry at FULL
(stereo SMILES `C@`), the other at DEGRADED (flat SMILES `CC`), produce
*identical* summaries `{updated := 1, emptied := 0, total := 1}`: the
summary does not report separate FULL and DEGRADED counts (and has no
isolated-failure counter at all — `USStats` mirrors all counters the
script keeps), contradicting the claim. -/
theorem c8_counterexample :
    (update_smiles_strict (.obj c8wFields) c8wOik c8wOnm 50).map (fun p => p.2) =
      (update_smiles_strict (.obj c8wFields) (fun _ => .ok ['C', 'C']) c8wOnm 50).map
        (fun p => p.2) ∧
    (update_smiles_strict (.obj c8wFields) c8wOik c8wOnm 50).map (fun p => p.2) =
      some ⟨1, 0, 1⟩ ∧
    tierOf (resolve ⟨[], "K".toList⟩ c8wOik c8wOnm).value = .FULL ∧
    tierOf (resolve ⟨[], "K".toList⟩ (fun _ => .ok ['C', 'C']) c8wOnm).value =
      .DEGRADED := by
  refine ⟨rfl, rfl, by decide, by decide⟩

/-- **C10.** Frame property of the SMILES-update pass: the output document
is the input document with only the `smiles` field of the first
`max_compounds` entries rewritten.  Every other top-level key is read back
unchanged, entries at or beyond `max_compounds` are unchanged, and within
a rewritten entry every field other than `smiles` is unchanged.  Since the
whole document is re-serialized by one `json.dump` call, equal parts of
the document value produce identical output bytes. -/
theorem c10_frame (oik onm : Str → Outcome) (maxCompounds : Nat)
    (fs : List (Str × JVal)) (l : List JVal) (doc1 : JVal) (st : USStats)
    (hc : jget fs kCompounds = some (.arr l))
    (hu : update_smiles_strict (.obj fs) oik onm maxCompounds = some (doc1, st)) :
    ∃ lNew, doc1 = .obj (jset fs kCompounds (.arr lNew)) ∧
      lNew.length = l.length ∧
      (∀ k, k ≠ kCompounds →
        jget (jset fs kCompounds (.arr lNew)) k = jget fs k) ∧
      (∀ i, maxCompounds ≤ i → lNew.get? i = l.get? i) ∧
      (∀ i, i < maxCompounds → ∀ e, l.get? i = some e →
        ∃ fs0 it, e = .obj fs0 ∧ itemOf fs0 = some it ∧
          lNew.get? i = some (.obj (jset fs0 kSmiles
            (.s (resolve it oik onm).value))) ∧
          (∀ k, k ≠ kSmiles →
            jget (jset fs0 kSmiles (.s (resolve it oik onm).value)) k =
              jget fs0 k)) := by
  simp only [update_smiles_strict, hc] at hu
  cases hup : updEntries oik onm (l.take maxCompounds) with
  | none => rw [hup] at hu; simp at hu
  | some t =>
    obtain ⟨l1, u, m⟩ := t
    rw [hup] at hu
    simp only [Option.some.injEq, Prod.mk.injEq] at hu
    obtain ⟨hdoc, hst⟩ := hu
    obtain ⟨hcu, hcm, hlen⟩ := updEntries_counts oik onm _ _ _ _ hup
    rw [List.length_take] at hlen
    refine ⟨l1 ++ l.drop maxCompounds, hdoc.symm, ?_, ?_, ?_, ?_⟩
    · rw [List.length_append, hlen, List.length_drop]
      omega
    · intro k hk
      exact jget_jset_ne fs kCompounds k _ hk
    · intro i hi
      by_cases hml : maxCompounds ≤ l.length
      · have hl1 : l1.length = maxCompounds := by omega
        rw [List.get?_append_right (by omega), List.get?_drop]
        congr 1
        omega
      · have hl1 : l1.length = l.length := by omega
        have hdropnil : l.drop maxCompounds = ([] : List JVal) :=
          List.drop_eq_nil_of_le (by omega)
        rw [List.get?_append_right (by omega), hdropnil]
        have h2 : l.get? i = none := List.get?_eq_none.mpr (by omega)
        rw [h2]
        rfl
    · intro i hi e he
      have hil : i < l.length := by
        rcases Nat.lt_or_ge i l.length with hlt | hge
        · exact hlt
        · rw [List.get?_eq_none.mpr hge] at he
          exact Option.noConfusion he
      have htake : (l.take maxCompounds).get? i = some e := by
        rw [List.get?_take hi]
        exact he
      obtain ⟨e1, upd, emp, hupe, hget1⟩ :=
        updEntries_get? oik onm _ _ _ _ hup i e htake
      obtain ⟨fs0, it, hefs, hitem, he1, hupd2, hemp2⟩ :=
        updEntry_shape oik onm e e1 upd emp hupe
      subst hefs
      refine ⟨fs0, it, rfl, hitem, ?_, ?_⟩
      · rw [List.get?_append (by omega), hget1, he1]
      · intro k hk
        exact jget_jset_ne fs0 kSmiles k _ hk

def c10wEntryB : JVal := .obj [(kSmiles, .s "keep".toList)]

def c10wFields : List (Str × JVal) :=
  [(kCompounds, .arr [.obj [(kCompoundName, .s "X".toList)], c10wEntryB]),
    ("source".toList, .s "LOTUS".toList)]

def c10wOnm : Str → Outcome := fun _ => .ok "CC".toList

def c10wDoc1 : JVal :=
  .obj (jset c10wFields kCompounds
    (.arr [.obj (jset [(kCompoundName, .s "X".toList)] kSmiles (.s "CC".toList)),
      c10wEntryB]))

/-- Witness for C10 at a concrete two-entry document with an extra
top-level key and `max_compounds = 1`: only the first entry's `smiles`
field changes. -/
theorem c10_frame_witness :
    ∃ lNew, c10wDoc1 = .obj (jset c10wFields kCompounds (.arr lNew)) ∧
      lNew.length =
        ([.obj [(kCompoundName, .s "X".toList)], c10wEntryB] : List JVal).length ∧
      (∀ k, k ≠ kCompounds →
        jget (jset c10wFields kCompounds (.arr lNew)) k = jget c10wFields k) ∧
      (∀ i, 1 ≤ i → lNew.get? i =
        ([.obj [(kCompoundName, .s "X".toList)], c10wEntryB] : List JVal).get? i) ∧
      (∀ i, i < 1 → ∀ e,
        ([.obj [(kCompoundName, .s "X".toList)], c10wEntryB] : List JVal).get? i =
          some e →
        ∃ fs0 it, e = .obj fs0 ∧ itemOf fs0 = some it ∧
          lNew.get? i = some (.obj (jset fs0 kSmiles
            (.s (resolve it (fun _ => .fail) c10wOnm).value))) ∧
          (∀ k, k ≠ kSmiles →
            jget (jset fs0 kSmiles (.s (resolve it (fun _ => .fail) c10wOnm).value)) k =
              jget fs0 k)) :=
  c10_frame (fun _ => .fail) c10wOnm 1 c10wFields
    [.obj [(kCompoundName, .s "X".toList)], c10wEntryB] c10wDoc1 ⟨1, 0, 1⟩ rfl rfl

/-! ## Batch extractor model (`lotus_batch_extractor.py`)

The output file is modelled as its character content (`Str`); lines are
recovered with `splitNL`, matching the line iteration of the resume scan.
The SPARQL lookup (`query_lotus_for_plant`) and the reference-metadata
fetch are external sources: they are modelled by an oracle
`q : Str → List CompoundRow` giving, for each queried plant name, the list
of result rows — `query_lotus_for_plant` catches every exception and
returns the empty list, so the oracle is total. -/

/-- One result row (lines 85-96): the five SPARQL variables, each `''` if
the binding is absent, plus the `doi`/`title`/`pub_date` metadata fields
merged in when a reference is present.  `Option` distinguishes an absent
dict key (only possible for the metadata fields) from an empty string. -/
structure CompoundRow where
  compound : Option Str
  compoundLabel : Option Str
  smiles : Option Str
  inchikey : Option Str
  reference : Option Str
  doi : Option Str
  title : Option Str
  pub_date : Option Str
deriving DecidableEq, Repr

instance : Inhabited CompoundRow :=
  ⟨⟨none, none, none, none, none, none, none, none⟩⟩

/-- The composite dedup key of `format_output` (line 123):
`(compound.get('compoundLabel', 'Unknown'), compound.get('doi', ''),
compound.get('title', ''))`. -/
def aggKey (row : CompoundRow) : Str × Str × Str :=
  (row.compoundLabel.getD ("Unknown".toList), row.doi.getD [], row.title.getD [])

/-- The dedup loop of `format_output` (lines 115-126): a `seen` dict in
insertion order, first occurrence wins. -/
def aggAux : List ((Str × Str × Str) × CompoundRow) → List CompoundRow →
    List ((Str × Str × Str) × CompoundRow)
  | seen, [] => seen
  | seen, c :: cs =>
    if aggKey c ∈ seen.map Prod.fst then aggAux seen cs
    else aggAux (seen ++ [(aggKey c, c)]) cs

/-- The aggregator: `seen.items()` after the dedup loop, i.e. the
key-to-first-row pairs in first-insertion order. -/
def aggregateCompounds (cs : List CompoundRow) :
    List ((Str × Str × Str) × CompoundRow) :=
  aggAux [] cs

/-- Modelled from the spec (§4.5): keep the first entry seen for each
composite key, discard later entries with the same key, preserving order.
Spec-side reference definition, only used for comparison with the
code-side `aggregateCompounds`. -/
def firstWins : List CompoundRow → List CompoundRow
  | [] => []
  | c :: cs => c :: firstWins (cs.filter fun x => decide (aggKey x ≠ aggKey c))
termination_by l => l.length
decreasing_by
  simp only [List.length_cons]
  exact Nat.lt_succ_of_le (List.length_filter_le _ _)

/-- Decimal rendering of a natural number, as in an f-string. -/
def natStr (n : Nat) : Str := (Nat.repr n).toList

/-- `pub_date.replace('+', '').split('T')[0]` (line 151). -/
def cleanDate (pub : Str) : Str :=
  (pub.filter fun c => !(c == '+')).takeWhile fun c => !(c == 'T')

def eq80c : Str := List.replicate 80 '='

/-- `"\n".join(output)` over the list of appended output pieces. -/
def joinNL : List Str → Str
  | [] => []
  | [x] => x
  | x :: xs => x ++ '\n' :: joinNL xs

/-- The output pieces appended for one deduplicated compound
(lines 127-152). -/
def compoundBlock (idx : Nat) (key : Str × Str × Str) (row : CompoundRow) :
    List Str :=
  (['\n' :: ("Compound ".toList ++ natStr idx ++ ": ".toList ++ key.1)])
  ++ (if (row.smiles.getD []).isEmpty then []
      else [("  SMILES: ".toList ++ row.smiles.getD [])])
  ++ (if (row.inchikey.getD []).isEmpty then []
      else [("  InChIKey: ".toList ++ row.inchikey.getD [])])
  ++ (if (row.doi.getD []).isEmpty && (row.title.getD []).isEmpty then []
      else ((if (row.title.getD []).isEmpty then []
              else [("  Title: ".toList ++ row.title.getD [])])
        ++ (if (row.doi.getD []).isEmpty then []
              else [("  DOI: ".toList ++ row.doi.getD [])])
        ++ (if (row.pub_date.getD []).isEmpty then []
              else [("  Published: ".toList ++ cleanDate (row.pub_date.getD []))])))

/-- `format_output` (lines 104-154): the separator line, the
`PLANT #<num>: <name>` marker line, the second separator, then either the
no-compounds notice or the deduplicated compound blocks; all joined with
newlines. -/
def format_output (num name : Str) (cs : List CompoundRow) : Str :=
  joinNL (('\n' :: eq80c)
    :: ("PLANT #".toList ++ num ++ ": ".toList ++ name)
    :: eq80c
    :: (if cs.isEmpty then ["No compounds found in LOTUS database.".toList]
        else (((aggregateCompounds cs).enumFrom 1).map
          fun p => compoundBlock p.1 p.2.1 p.2.2).join))

/-- Python `str.strip()`. -/
def pyWS (c : Char) : Bool := c.isWhitespace

def pyStrip (s : Str) : Str := ((s.dropWhile pyWS).reverse.dropWhile pyWS).reverse

/-- `plant_name.split(" or ")` (line 216): split on every occurrence of
the four-character separator, scanning left to right. -/
def splitOr : Str → List Str
  | [] => [[]]
  | ' ' :: 'o' :: 'r' :: ' ' :: rest => [] :: splitOr rest
  | c :: rest =>
    match splitOr rest with
    | [] => [[c]]
    | h :: t => (c :: h) :: t

/-- `line.startswith('PLANT #')`. -/
def startsW : Str → Str → Bool
  | _, [] => true
  | [], _ :: _ => false
  | c :: s, p :: ps => c == p && startsW s ps

/-- The resume scan applied to one line (lines 193-199): a line starting
with `PLANT #` contributes `line.split('#')[1].split(':')[0].strip()` —
the characters after the first `#` (which, given the startswith check, is
the one at index 6) up to the next `#`, cut at the first `:`, stripped. -/
def parseLine (line : Str) : Option Str :=
  if startsW line ("PLANT #".toList) then
    some (pyStrip (((line.drop 7).takeWhile fun c => !(c == '#')).takeWhile
      fun c => !(c == ':')))
  else none

/-- File content split at every newline, matching the per-line iteration
of the resume scan (a final element after the last newline is the empty
string for newline-terminated content; it never starts with `PLANT #`). -/
def splitNL : Str → List Str
  | [] => [[]]
  | c :: rest =>
    if c = '\n' then [] :: splitNL rest
    else
      match splitNL rest with
      | [] => [[c]]
      | h :: t => (c :: h) :: t

/-- `completed_plants` (lines 190-199): the keys of all marker lines of
the existing output.  Membership is what matters; the Python set is
modelled as a list. -/
def completionSet (content : Str) : List Str :=
  (splitNL content).filterMap parseLine

/-- Query results for one work item (lines 216-221): the plant name is
split on `" or "`, each synonym stripped and queried, results
concatenated in order.  The oracle `q` is total: `query_lotus_for_plant`
catches every exception and returns `[]` (lines 79-101). -/
def queriedCompounds (q : Str → List CompoundRow) (name : Str) : List CompoundRow :=
  ((splitOr name).map pyStrip).flatMap q

/-- The output text appended for one processed item: the formatted section
plus the `out_file.write("\n")` terminator (lines 225-227). -/
def sectionOf (q : Str → List CompoundRow) (num name : Str) : Str :=
  format_output num name (queriedCompounds q name) ++ ['\n']

/-- The header written when the output file does not yet exist
(lines 204-207); `ts` is the `time.strftime` timestamp. -/
def headerContent (nPlants : Nat) (ts : Str) : Str :=
  "LOTUS BATCH COMPOUND EXTRACTION RESULTS\n".toList ++
    ("Total Plants: ".toList ++ natStr nPlants ++ "\n".toList) ++
    ("Generated: ".toList ++ ts ++ "\n".toList)

/-- Outcome of one run: final output-file content and the number of items
actually processed (not skipped). -/
structure RunResult where
  file : Str
  processed : Nat
deriving DecidableEq, Repr

/-- The per-plant loop of `main` (lines 209-230) under fault-free
execution: a plant whose key is in the completion set is skipped
(`continue`); otherwise its section is appended.  The completion set is
fixed before the loop and never updated during it. -/
def runLoop (completed : List Str) (q : Str → List CompoundRow) :
    List (Str × Str) → Str → Nat → RunResult
  | [], f, n => ⟨f, n⟩
  | (num, name) :: rest, f, n =>
    if num ∈ completed then runLoop completed q rest f n
    else runLoop completed q rest (f ++ sectionOf q num name) (n + 1)

/-- CSV loading (lines 169-176): each row contributes
`(row[0].strip(), row[1].strip())`. -/
def loadPlants (rows : List (Str × Str)) : List (Str × Str) :=
  rows.map fun r => (pyStrip r.1, pyStrip r.2)

/-- One invocation of `main` (lines 157-234) over an already-parsed row
list: if no output file exists, the header is written and the completion
set is empty; otherwise the existing content is kept (append mode) and
the completion set is scanned from it. -/
def runOnce (rows : List (Str × Str)) (q : Str → List CompoundRow) (ts : Str)
    (existing : Option Str) : RunResult :=
  match existing with
  | none => runLoop [] q (loadPlants rows) (headerContent (loadPlants rows).length ts) 0
  | some c => runLoop (completionSet c) q (loadPlants rows) c 0

/-- The per-plant loop with write-fault injection: the loop body of `main`
contains no exception handler, so a fault raised by the `n`-th section
write (`wfail n = true`, e.g. an `OSError` from `out_file.write`)
propagates and aborts the whole run, carrying the file content and
processed count reached so far. -/
def runLoopE (completed : List Str) (q : Str → List CompoundRow)
    (wfail : Nat → Bool) :
    List (Str × Str) → Str → Nat → Except (Str × Nat) (Str × Nat)
  | [], f, n => .ok (f, n)
  | (num, name) :: rest, f, n =>
    if num ∈ completed then runLoopE completed q wfail rest f n
    else if wfail n then .error (f, n)
    else runLoopE completed q wfail rest (f ++ sectionOf q num name) (n + 1)

/-! ## Line and scan lemmas -/

theorem splitNL_ne_nil : ∀ l : Str, splitNL l ≠ [] := by
  intro l
  cases l with
  | nil => simp [splitNL]
  | cons c rest =>
    by_cases hc : c = '\n'
    · simp [splitNL, hc]
    · simp only [splitNL, hc, if_false]
      cases splitNL rest <;> simp

theorem splitNL_append (a b : Str) :
    splitNL (a ++ '\n' :: b) = splitNL a ++ splitNL b := by
  induction a with
  | nil => simp [splitNL]
  | cons c a2 ih =>
    by_cases hc : c = '\n'
    · simp [splitNL, hc, ih]
    · simp only [List.cons_append, splitNL, hc, if_false, List.append_eq]
      rw [ih]
      cases hsp : splitNL a2 with
      | nil => exact absurd hsp (splitNL_ne_nil a2)
      | cons h t => simp

theorem splitNL_head (l : Str) :
    ∃ t, splitNL l = (l.takeWhile fun c => !(c == '\n')) :: t := by
  induction l with
  | nil => exact ⟨[], rfl⟩
  | cons c rest ih =>
    by_cases hc : c = '\n'
    · refine ⟨splitNL rest, ?_⟩
      simp [splitNL, hc, List.takeWhile_cons]
    · obtain ⟨t, ht⟩ := ih
      refine ⟨t, ?_⟩
      have hcb : (!(c == '\n')) = true := by simp [hc]
      simp [splitNL, hc, ht, List.takeWhile_cons, hcb]

theorem completionSet_append (a b : Str) :
    completionSet (a ++ '\n' :: b) = completionSet a ++ completionSet b := by
  simp [completionSet, splitNL_append, List.filterMap_append]

theorem takeWhile_sat_append (p : Char → Bool) :
    ∀ u v : Str, (∀ x ∈ u, p x = true) →
      (u ++ v).takeWhile p = u ++ v.takeWhile p := by
  intro u
  induction u with
  | nil => intro v h; simp
  | cons c u2 ih =>
    intro v h
    have hc : p c = true := h c (by simp)
    simp only [List.cons_append, List.takeWhile_cons, hc, if_true]
    rw [ih v fun x hx => h x (by simp [hx])]

theorem takeWhile_stop (p : Char → Bool) (u : Str) (y : Char) (z : Str)
    (h : ∀ x ∈ u, p x = true) (hy : p y = false) :
    (u ++ y :: z).takeWhile p = u := by
  rw [takeWhile_sat_append p u (y :: z) h, List.takeWhile_cons, hy]
  simp

theorem startsW_self_append : ∀ p s : Str, startsW (p ++ s) p = true := by
  intro p
  induction p with
  | nil => intro s; cases s <;> rfl
  | cons c p2 ih => intro s; simp [startsW, ih]

/-- Round-trip condition on a work-item key: already stripped, and free of
the characters that the marker-line parse treats specially. -/
def GoodKey (k : Str) : Prop :=
  pyStrip k = k ∧ '#' ∉ k ∧ ':' ∉ k ∧ '\n' ∉ k

instance : DecidablePred GoodKey := fun k => by
  unfold GoodKey
  infer_instance

/-- The resume-scan parse recovers a good key from its marker line. -/
theorem parseLine_marker (k w : Str) (hk : GoodKey k) :
    parseLine ("PLANT #".toList ++ (k ++ ':' :: w)) = some k := by
  obtain ⟨hstrip, hhash, hcolon, hnl⟩ := hk
  unfold parseLine
  rw [if_pos (startsW_self_append _ _)]
  congr 1
  have hlen : ("PLANT #".toList : Str).length = 7 := rfl
  have hdrop : ("PLANT #".toList ++ (k ++ ':' :: w)).drop 7 = k ++ ':' :: w := by
    rw [← hlen, List.drop_left]
  rw [hdrop]
  have h1 : (k ++ ':' :: w).takeWhile (fun c => !(c == '#')) =
      k ++ ':' :: w.takeWhile (fun c => !(c == '#')) := by
    rw [takeWhile_sat_append _ _ _ fun x hx => by
      have hxne : x ≠ '#' := fun hh => hhash (hh ▸ hx)
      simp [hxne]]
    rfl
  rw [h1]
  rw [takeWhile_stop _ k ':' _ (fun x hx => by
      have hxne : x ≠ ':' := fun hh => hcolon (hh ▸ hx)
      simp [hxne]) (by rfl)]
  exact hstrip

/-- A good key whose marker line occurs anywhere after a newline is in the
completion set, whatever surrounds it. -/
theorem mem_completionSet_marker (a k w : Str) (hk : GoodKey k) :
    k ∈ completionSet
      (a ++ '\n' :: (eq80c ++ '\n' :: ("PLANT #".toList ++ (k ++ ':' :: w)))) := by
  rw [completionSet_append, completionSet_append]
  refine List.mem_append_right _ (List.mem_append_right _ ?_)
  obtain ⟨t, ht⟩ := splitNL_head ("PLANT #".toList ++ (k ++ ':' :: w))
  have hline : (("PLANT #".toList ++ (k ++ ':' :: w)).takeWhile
      fun c => !(c == '\n')) =
      "PLANT #".toList ++ (k ++ ':' :: w.takeWhile fun c => !(c == '\n')) := by
    rw [takeWhile_sat_append _ _ _ (by decide)]
    rw [takeWhile_sat_append _ _ _ fun x hx => by
      have hxne : x ≠ '\n' := fun hh => hk.2.2.2 (hh ▸ hx)
      simp [hxne]]
    rfl
  unfold completionSet
  rw [ht, hline]
  have hp := parseLine_marker k (w.takeWhile fun c => !(c == '\n')) hk
  rw [List.filterMap_cons, hp]
  exact List.mem_cons_self _ _

theorem joinNL_cons_cons (a b : Str) (l : List Str) :
    joinNL (a :: b :: l) = a ++ '\n' :: joinNL (b :: l) := rfl

/-- Every written section starts, after its leading newline and separator
line, with the marker text `PLANT #<num>:`; whatever follows the colon is
absorbed into `w`.  This holds for empty and non-empty query results
alike. -/
theorem sectionOf_shape (q : Str → List CompoundRow) (num name : Str) :
    ∃ w, sectionOf q num name =
      '\n' :: (eq80c ++ '\n' :: ("PLANT #".toList ++ (num ++ ':' :: w))) := by
  unfold sectionOf format_output
  rw [joinNL_cons_cons, joinNL_cons_cons]
  refine ⟨' ' :: (name ++ '\n' :: (joinNL (eq80c ::
    (if (queriedCompounds q name).isEmpty
      then ["No compounds found in LOTUS database.".toList]
      else (((aggregateCompounds (queriedCompounds q name)).enumFrom 1).map
        fun p => compoundBlock p.1 p.2.1 p.2.2).join)) ++ ['\n'])), ?_⟩
  simp [List.append_assoc]

/-- The concatenated sections appended for a list of processed plants. -/
def allSections (q : Str → List CompoundRow) : List (Str × Str) → Str
  | [] => []
  | p :: rest => sectionOf q p.1 p.2 ++ allSections q rest

theorem allSections_append (q : Str → List CompoundRow) (l1 l2 : List (Str × Str)) :
    allSections q (l1 ++ l2) = allSections q l1 ++ allSections q l2 := by
  induction l1 with
  | nil => simp [allSections]
  | cons p rest ih => simp [allSections, ih]

theorem runLoop_skip_all (completed : List Str) (q : Str → List CompoundRow) :
    ∀ plants f n, (∀ p ∈ plants, p.1 ∈ completed) →
      runLoop completed q plants f n = ⟨f, n⟩ := by
  intro plants
  induction plants with
  | nil => intro f n h; rfl
  | cons p rest ih =>
    intro f n h
    obtain ⟨num, name⟩ := p
    have hmem : num ∈ completed := h (num, name) (by simp)
    simp only [runLoop, if_pos hmem]
    exact ih f n fun p2 hp2 => h p2 (by simp [hp2])

theorem runLoop_process_all (completed : List Str) (q : Str → List CompoundRow) :
    ∀ plants f n, (∀ p ∈ plants, ¬ p.1 ∈ completed) →
      runLoop completed q plants f n =
        ⟨f ++ allSections q plants, n + plants.length⟩ := by
  intro plants
  induction plants with
  | nil => intro f n h; simp [runLoop, allSections]
  | cons p rest ih =>
    intro f n h
    obtain ⟨num, name⟩ := p
    have hmem : ¬ num ∈ completed := h (num, name) (by simp)
    simp only [runLoop, if_neg hmem]
    rw [ih _ _ fun p2 hp2 => h p2 (by simp [hp2])]
    simp only [allSections, RunResult.mk.injEq]
    constructor
    · simp [List.append_assoc]
    · simp only [List.length_cons]
      omega

/-- A good key of any plant in the processed list is recovered by the
resume scan of the produced output. -/
theorem mem_completionSet_run (hdr : Str) (q : Str → List CompoundRow)
    (plants : List (Str × Str)) (p : Str × Str)
    (hp : p ∈ plants) (hk : GoodKey p.1) :
    p.1 ∈ completionSet (hdr ++ allSections q plants) := by
  obtain ⟨l1, l2, rfl⟩ := List.append_of_mem hp
  rw [allSections_append]
  obtain ⟨w, hw⟩ := sectionOf_shape q p.1 p.2
  rw [show allSections q (p :: l2) = sectionOf q p.1 p.2 ++ allSections q l2 from rfl]
  rw [hw]
  have hm := mem_completionSet_marker (hdr ++ allSections q l1) p.1
    (w ++ allSections q l2) hk
  simpa [List.append_assoc] using hm

theorem runOnce_fresh_eq (rows : List (Str × Str)) (q : Str → List CompoundRow)
    (ts : Str) :
    runOnce rows q ts none =
      ⟨headerContent (loadPlants rows).length ts ++ allSections q (loadPlants rows),
        0 + (loadPlants rows).length⟩ := by
  unfold runOnce
  exact runLoop_process_all [] q (loadPlants rows) _ 0 (by simp)

theorem runOnce_resume_all_completed (rows : List (Str × Str))
    (q : Str → List CompoundRow) (ts c : Str)
    (hall : ∀ p ∈ loadPlants rows, p.1 ∈ completionSet c) :
    runOnce rows q ts (some c) = ⟨c, 0⟩ := by
  unfold runOnce
  exact runLoop_skip_all _ q _ c 0 hall

/-- **C2 (amended).** Provided every row key, once stripped at load time,
is trimmed and contains no `#`, `:` or newline, a second run over the same
rows, the same oracle and the output of a completed first run processes
zero additional items and leaves the output byte-identical: every key is
recovered from its marker line by the resume scan and the item is skipped. -/
theorem c2_second_run_idempotent (rows : List (Str × Str))
    (q : Str → List CompoundRow) (ts : Str)
    (hk : ∀ r ∈ rows, GoodKey (pyStrip r.1)) :
    (runOnce rows q ts (some (runOnce rows q ts none).file)).processed = 0 ∧
    (runOnce rows q ts (some (runOnce rows q ts none).file)).file =
      (runOnce rows q ts none).file := by
  have hall : ∀ p ∈ loadPlants rows,
      p.1 ∈ completionSet (runOnce rows q ts none).file := by
    intro p hp
    have hkp : GoodKey p.1 := by
      obtain ⟨r, hr, rfl⟩ := List.mem_map.mp hp
      exact hk r hr
    rw [runOnce_fresh_eq]
    exact mem_completionSet_run _ q _ p hp hkp
  rw [runOnce_resume_all_completed rows q ts _ hall]
  exact ⟨rfl, rfl⟩

/-- Witness for the amended C2: one plant with the well-behaved key `5`;
the second run processes nothing and appends nothing. -/
theorem c2_second_run_idempotent_witness :
    (runOnce [("5".toList, "Rose".toList)] (fun _ => []) "T".toList
      (some (runOnce [("5".toList, "Rose".toList)] (fun _ => [])
        "T".toList none).file)).processed = 0 ∧
    (runOnce [("5".toList, "Rose".toList)] (fun _ => []) "T".toList
      (some (runOnce [("5".toList, "Rose".toList)] (fun _ => [])
        "T".toList none).file)).file =
      (runOnce [("5".toList, "Rose".toList)] (fun _ => []) "T".toList none).file :=
  c2_second_run_idempotent _ _ _ (by decide)

set_option maxRecDepth 200000

/-- **C2 counterexample.** With the key `a#b` the marker line
`PLANT #a#b: Fern` is parsed back as `a` (`split('#')[1]` cuts at the
second `#`), so after a completed first run the second run does not find
`a#b` in the completion set, reprocesses the item and appends a duplicate
section: re-running is not idempotent for every work set. -/
theorem c2_counterexample :
    (runOnce [("a#b".toList, "Fern".toList)] (fun _ => []) "T".toList
      (some (runOnce [("a#b".toList, "Fern".toList)] (fun _ => [])
        "T".toList none).file)).processed = 1 ∧
    (runOnce [("a#b".toList, "Fern".toList)] (fun _ => []) "T".toList
      (some (runOnce [("a#b".toList, "Fern".toList)] (fun _ => [])
        "T".toList none).file)).file ≠
      (runOnce [("a#b".toList, "Fern".toList)] (fun _ => []) "T".toList none).file := by
  decide

/-- **C9 (amended).** Every processed work item writes a section whose
marker line `PLANT #<key>: <label>` the resume scan recovers — the oracle
`q` is unrestricted, so this covers items whose queries return zero
compounds (`format_output` emits the marker with the
`No compounds found` body) — and, provided each stripped key is trimmed
and free of `#`, `:` and newline, a subsequent run finds every processed
key in the completion set and skips it. -/
theorem c9_zero_result_completion (rows : List (Str × Str))
    (q : Str → List CompoundRow) (ts : Str) (p : Str × Str)
    (hk : ∀ r ∈ rows, GoodKey (pyStrip r.1)) (hp : p ∈ loadPlants rows) :
    p.1 ∈ completionSet (runOnce rows q ts none).file ∧
    (runOnce rows q ts (some (runOnce rows q ts none).file)).processed = 0 := by
  have hall : ∀ p2 ∈ loadPlants rows,
      p2.1 ∈ completionSet (runOnce rows q ts none).file := by
    intro p2 hp2
    have hkp2 : GoodKey p2.1 := by
      obtain ⟨r, hr, rfl⟩ := List.mem_map.mp hp2
      exact hk r hr
    rw [runOnce_fresh_eq]
    exact mem_completionSet_run _ q _ p2 hp2 hkp2
  refine ⟨hall p hp, ?_⟩
  rw [runOnce_resume_all_completed rows q ts _ hall]

/-- Witness for the amended C9: an item whose query returns zero results
still lands in the completion set and the restart skips it. -/
theorem c9_zero_result_completion_witness :
    ("7".toList, "Oak".toList).1 ∈ completionSet
      (runOnce [("7".toList, "Oak".toList)] (fun _ => []) "T".toList none).file ∧
    (runOnce [("7".toList, "Oak".toList)] (fun _ => []) "T".toList
      (some (runOnce [("7".toList, "Oak".toList)] (fun _ => [])
        "T".toList none).file)).processed = 0 :=
  c9_zero_result_completion _ _ _ _ (by decide) (by decide)

/-- **C9 counterexample.** The zero-result item with key `x:y` does write
its marker section, but the resume parse cuts the key at the first `:`
and records `x`; on the next run `x:y` is not in the completion set and
the item is reprocessed instead of skipped. -/
theorem c9_counterexample :
    ("x:y".toList ∉ completionSet
      (runOnce [("x:y".toList, "Fig".toList)] (fun _ => []) "T".toList none).file) ∧
    (runOnce [("x:y".toList, "Fig".toList)] (fun _ => []) "T".toList
      (some (runOnce [("x:y".toList, "Fig".toList)] (fun _ => [])
        "T".toList none).file)).processed = 1 := by
  decide

set_option maxRecDepth 100000 in
theorem completionSet_take_secPre :
    ((List.range 89).all fun m =>
      (completionSet ((eq80c ++ '\n' :: "PLANT #".toList).take m)).all
        fun x => x.isEmpty) = true := by
  decide

/-- **C1 (amended).** The completion scan counts a section as complete as
soon as its `PLANT #<key>:` marker line is present, closing content or
not.  A truncated trailing section is therefore excluded exactly when the
kill happened before the key of the marker line was written — the first
89 characters of a section (leading newline, separator line, second
newline and the text `PLANT #`): for any cut within them, a non-empty key
not already present stays out of the completion set. -/
theorem c1_truncation_before_marker (q : Str → List CompoundRow)
    (file k name : Str) (n : Nat)
    (hn : n ≤ 89) (hk : k ≠ []) (hfile : k ∉ completionSet file) :
    k ∉ completionSet (file ++ (sectionOf q k name).take n) := by
  obtain ⟨w, hw⟩ := sectionOf_shape q k name
  rw [hw]
  cases n with
  | zero => simpa using hfile
  | succ m =>
    have hm : m < 89 := by omega
    rw [List.take_succ_cons]
    have hsplit : eq80c ++ '\n' :: ("PLANT #".toList ++ (k ++ ':' :: w)) =
        (eq80c ++ '\n' :: "PLANT #".toList) ++ (k ++ ':' :: w) := by
      simp [List.append_assoc]
    rw [hsplit]
    have h88 : ((eq80c ++ '\n' :: "PLANT #".toList : Str)).length = 88 := by decide
    rw [List.take_append_of_le_length (by omega)]
    rw [completionSet_append]
    intro hmem
    rcases List.mem_append.mp hmem with hA | hB
    · exact hfile hA
    · have h1 := List.all_eq_true.mp
        (List.all_eq_true.mp completionSet_take_secPre _ (List.mem_range.mpr hm)) k hB
      cases k with
      | nil => exact hk rfl
      | cons c cs => exact absurd h1 (by simp)

/-- Witness for the amended C1 at the largest allowed cut (89 characters,
ending right after the text `PLANT #`): the key `7` is not counted. -/
theorem c1_truncation_before_marker_witness :
    "7".toList ∉ completionSet
      ([] ++ (sectionOf (fun _ => []) "7".toList "X".toList).take 89) :=
  c1_truncation_before_marker (fun _ => []) [] "7".toList "X".toList 89
    (by decide) (by decide) (by decide)

def c1File : Str :=
  (runOnce [("5".toList, "Fern".toList)] (fun _ => []) "T".toList none).file

set_option maxRecDepth 200000

/-- **C1 counterexample.** Truncating the single-section output of a
completed run to its first 170 characters cuts the section after its
marker line but before the closing separator line and the section body —
a prematurely truncated trailing section.  The completion set of the
truncated file still contains the key `5`, so a restarted run would skip
the item: a truncated section IS counted as complete, contradicting the
claim. -/
theorem c1_counterexample :
    (c1File.take 170) ≠ c1File ∧
    ("5".toList ∈ completionSet (c1File.take 170)) := by
  decide

/-- **C5 (amended).** The per-item loop of `main` contains no exception
handler: a fault raised while writing an item's section propagates and
aborts the run at that item, with the output and processed count as they
were — in particular the result does not depend on the items after the
faulting one, which are never processed, and no isolated-failure marking
or count exists.  Only lookup failures are contained, inside
`query_lotus_for_plant`, which catches every exception and contributes an
empty result list. -/
theorem c5_fault_aborts (completed : List Str) (q : Str → List CompoundRow)
    (wfail : Nat → Bool) (pre post : List (Str × Str)) (num name : Str)
    (f : Str) (n : Nat)
    (hpre : ∀ p ∈ pre, p.1 ∈ completed)
    (hnum : num ∉ completed)
    (hw : wfail n = true) :
    runLoopE completed q wfail (pre ++ (num, name) :: post) f n = .error (f, n) := by
  induction pre with
  | nil =>
    rw [List.nil_append]
    simp [runLoopE, hnum, hw]
  | cons p rest ih =>
    obtain ⟨n1, m1⟩ := p
    have hmem : n1 ∈ completed := hpre (n1, m1) (by simp)
    rw [List.cons_append]
    simp only [runLoopE, if_pos hmem]
    exact ih fun p2 hp2 => hpre p2 (by simp [hp2])

/-- Witness for the amended C5: with item `1` already completed, a write
fault at item `2` aborts the run before item `3`. -/
theorem c5_fault_aborts_witness :
    runLoopE ["1".toList] (fun _ => []) (fun _ => true)
      ([("1".toList, "A".toList)] ++ ("2".toList, "B".toList) ::
        [("3".toList, "C".toList)]) [] 0 = .error ([], 0) :=
  c5_fault_aborts _ _ _ _ _ _ _ _ _ (by decide) (by decide) rfl

/-- **C5 counterexample.** A write fault at the first item aborts the run
with zero items processed — the second item is never reached — whereas
the fault-free run processes both: a single bad record does abort the
run, and nothing is marked or counted as an isolated failure. -/
theorem c5_counterexample :
    runLoopE [] (fun _ => []) (fun _ => true)
      [("1".toList, "A".toList), ("2".toList, "B".toList)] [] 0 = .error ([], 0) ∧
    (match runLoopE [] (fun _ => []) (fun _ => false)
        [("1".toList, "A".toList), ("2".toList, "B".toList)] [] 0 with
      | .ok (_, n) => n = 2
      | .error _ => False) := by
  exact ⟨rfl, rfl⟩

theorem firstWins_cons (c : CompoundRow) (cs : List CompoundRow) :
    firstWins (c :: cs) =
      c :: firstWins (cs.filter fun x => decide (aggKey x ≠ aggKey c)) := by
  rw [firstWins]

theorem aggAux_firstWins :
    ∀ (cs : List CompoundRow) (seen : List ((Str × Str × Str) × CompoundRow)),
      aggAux seen cs = seen ++ (firstWins (cs.filter fun c =>
        decide (aggKey c ∉ seen.map Prod.fst))).map fun c => (aggKey c, c) := by
  intro cs
  induction cs with
  | nil => intro seen; simp [aggAux, firstWins]
  | cons c rest ih =>
    intro seen
    by_cases hmem : aggKey c ∈ seen.map Prod.fst
    · have hpc : (decide (aggKey c ∉ seen.map Prod.fst)) = false := by simp [hmem]
      simp only [aggAux, if_pos hmem, List.filter_cons, hpc, if_false,
        Bool.false_eq_true]
      exact ih seen
    · have hpc : (decide (aggKey c ∉ seen.map Prod.fst)) = true := by simp [hmem]
      simp only [aggAux, if_neg hmem, List.filter_cons, hpc, if_true]
      rw [ih (seen ++ [(aggKey c, c)])]
      rw [firstWins_cons]
      rw [List.filter_filter]
      have hpred : ∀ x ∈ rest,
          (decide (aggKey x ≠ aggKey c) &&
            decide (aggKey x ∉ seen.map Prod.fst)) =
          decide (aggKey x ∉ (seen ++ [(aggKey c, c)]).map Prod.fst) := by
        intro x hx
        by_cases ha : aggKey x = aggKey c
        · simp [ha, List.mem_append]
        · by_cases hb : aggKey x ∈ List.map Prod.fst seen <;>
            simp [ha, hb, List.mem_append]
      rw [List.filter_congr hpred]
      simp [List.append_assoc]

/-- **C6.** The dedup loop inside `format_output` agrees with the
first-seen-wins specification: it returns, in first-insertion order, one
`(composite key, row)` pair per distinct key `(label, doi, title)`,
carrying the first row seen for that key and discarding every later row
with the same key.  Both sides are pure functions of the input list and
the input is not consumed or reordered, so the aggregation is
deterministic. -/
theorem c6_aggregate_first_wins (cs : List CompoundRow) :
    aggregateCompounds cs = (firstWins cs).map fun c => (aggKey c, c) := by
  rw [show aggregateCompounds cs = aggAux [] cs from rfl, aggAux_firstWins cs []]
  have hfe : (cs.filter fun c =>
      decide (aggKey c ∉ ([] : List ((Str × Str × Str) × CompoundRow)).map
        Prod.fst)) = cs := by
    apply List.filter_eq_self.mpr
    intro a ha
    simp
  rw [hfe, List.nil_append]
